import Mathlib

/-!
Shallow embedding of the core of the `youtube-otomatik-video-sistemi`
repository, together with proofs about it.

Conventions of the embedding:
* JavaScript numbers are modelled as `ℤ` where the code only ever adds,
  subtracts, compares and takes minima of them (durations, offsets), and
  as `ℚ` where a division occurs (the words-per-minute formula, backoff
  delays); the repository passes integer second counts through the
  pipeline;
  array indices and lengths as `ℕ`.
* JavaScript strings that the code inspects character by character are
  modelled as `List Char`; strings used only as opaque labels (URLs,
  error messages, service names) are Lean `String`s.
* Thrown exceptions are modelled with `Except`.
* The `while` loop of `assignTimingToVisuals` and the `for` loop of
  `retryOperation` are modelled by structural recursion on an explicit
  counter that equals the number of loop iterations still allowed by the
  source's loop guard, so every embedded function is executable.
-/

namespace YT

/-- Embedding of the `AppError` class of `src/utils/errors.ts`: an error
carries a message, a code, a category, a retryable flag and a status code. -/
structure AppError where
  message : String
  code : String
  category : String
  retryable : Bool
  statusCode : ℕ
deriving DecidableEq, Repr

/-- Embedding of `ValidationError` (`errors.ts` line 42): category `user`,
not retryable, status 400. -/
def ValidationError (message : String) : AppError :=
  ⟨message, "VALIDATION_ERROR", "user", false, 400⟩

/-- Embedding of `ExternalServiceError` (`errors.ts` line 66): category
`external`, status 502; the `retryable` constructor parameter defaults to
`true` in the source, so call sites that omit it pass `true` here. -/
def ExternalServiceError (service : String) (message : String) (retryable : Bool) : AppError :=
  ⟨service ++ " error: " ++ message, "EXTERNAL_SERVICE_ERROR", "external", retryable, 502⟩

/-- The two kinds of visual assets handled by `VisualContentService`. -/
inductive VisualType where
  | image : VisualType
  | video : VisualType
deriving DecidableEq, Repr

/-- Embedding of the `VisualContent` record used by
`src/services/VisualContentService.ts`: type, source URL, slice duration
in seconds and start offset in seconds. -/
structure VisualContent where
  type : VisualType
  source : String
  duration : ℤ
  startTime : ℤ
deriving DecidableEq, Repr

/-- Placeholder element for `List.getD`; never selected by
`assignTimingToVisuals` because the loop body only runs when the asset
list is non-empty (its duration is 0, which also keeps `remSum` exact on
the empty list). -/
def dummyVisual : VisualContent := ⟨VisualType.image, "", 0, 0⟩

/-- Total duration of a list of visual slices. -/
def sumDur (l : List VisualContent) : ℤ :=
  (l.map (fun v => v.duration)).sum

/-- Embedding of the `while` loop of `assignTimingToVisuals`
(`VisualContentService.ts` lines 227-247).  The source guard is
`currentTime < totalDuration && visualIndex < visuals.length * 3`; here
`gas` counts the iterations still allowed by the second conjunct, so the
top-level call passes `gas = visuals.length * 3` and `visualIndex = 0`,
and `gas = 0` is exactly `visualIndex = visuals.length * 3`. -/
def assignLoop (visuals : List VisualContent) (totalDuration : ℤ) :
    ℤ → ℕ → ℕ → List VisualContent
  | _currentTime, _visualIndex, 0 => []
  | currentTime, visualIndex, gas + 1 =>
    if currentTime < totalDuration then
      let visual := visuals.getD (visualIndex % visuals.length) dummyVisual
      let remainingTime := totalDuration - currentTime
      let visualDuration := min visual.duration remainingTime
      if 0 < visualDuration then
        { visual with startTime := currentTime, duration := visualDuration } ::
          assignLoop visuals totalDuration (currentTime + visualDuration) (visualIndex + 1) gas
      else
        assignLoop visuals totalDuration currentTime (visualIndex + 1) gas
    else []

/-- Embedding of `VisualContentService.assignTimingToVisuals`
(`VisualContentService.ts` lines 222-250): empty input short-circuits to
`[]`; otherwise the while loop runs from time 0 and index 0 with at most
`visuals.length * 3` iterations. -/
def assignTimingToVisuals (visuals : List VisualContent) (totalDuration : ℤ) :
    List VisualContent :=
  if visuals.isEmpty then [] else
    assignLoop visuals totalDuration 0 0 (visuals.length * 3)

/-- Sum of the nominal durations the loop would still read: the durations
of `visuals[(visualIndex + j) % visuals.length]` for `j < gas`. -/
def remSum (visuals : List VisualContent) : ℕ → ℕ → ℤ
  | _visualIndex, 0 => 0
  | visualIndex, gas + 1 =>
    (visuals.getD (visualIndex % visuals.length) dummyVisual).duration +
      remSum visuals (visualIndex + 1) gas

/-- Contiguity predicate: `ChainFrom t l` says the slices of `l` start at
`t`, have positive durations, and each slice starts exactly where the
previous one ends. -/
def ChainFrom : ℤ → List VisualContent → Prop
  | _, [] => True
  | t, v :: rest => v.startTime = t ∧ 0 < v.duration ∧ ChainFrom (t + v.duration) rest

/-- JavaScript `String.prototype.trim`: remove leading and trailing
whitespace (the source calls it on topics, sentences and chunk buffers). -/
def jsTrim (s : List Char) : List Char :=
  ((s.dropWhile Char.isWhitespace).reverse.dropWhile Char.isWhitespace).reverse

/-- Embedding of `VisualContentService.findVisualContent`
(`VisualContentService.ts` lines 28-89).  The Unsplash/Pexels searches are
external collaborator calls, so the list of candidate assets they produce
is passed in as `searchResults`; the function validates its inputs and
then hands the candidates to `assignTimingToVisuals`.  The source check
`!topic || topic.trim().length === 0` is exactly `jsTrim topic = []`. -/
def findVisualContent (topic : List Char) (duration : ℤ)
    (searchResults : List VisualContent) : Except AppError (List VisualContent) :=
  if jsTrim topic = [] then
    Except.error (ValidationError "Topic is required")
  else if duration < 30 ∨ 1800 < duration then
    Except.error (ValidationError "Duration must be between 30 and 1800 seconds")
  else
    Except.ok (assignTimingToVisuals searchResults duration)

/-- The error on which JavaScript's `throw lastError!` ends up when
`retryOperation` is called with `maxRetries = 0` (the loop body never
runs and `lastError` is still `undefined`); unreachable for
`maxRetries ≥ 1`. -/
def undefinedLastError : AppError := ⟨"undefined", "", "", false, 0⟩

/-- Embedding of the `for` loop of `ErrorHandler.retryOperation`
(`errors.ts` lines 105-137).  `attempt` is the current 1-based attempt
number and `left + 1` is the number of attempts still allowed, so
`attempt = maxRetries` is exactly `left = 0` (the `break` case).  The
result records the outcome, the number of times `operation` was invoked,
and the list of backoff delays slept, in order.  Failures are modelled as
`AppError`s (the source treats a non-`AppError` exception as retryable,
exactly like an `AppError` with `retryable = true`). -/
def retryLoop {α : Type} (op : ℕ → Except AppError α) (delay : ℚ) :
    ℕ → ℕ → Except AppError α × ℕ × List ℚ
  | _attempt, 0 => (Except.error undefinedLastError, 0, [])
  | attempt, left + 1 =>
    match op attempt with
    | Except.ok v => (Except.ok v, 1, [])
    | Except.error e =>
      if e.retryable = false then (Except.error e, 1, [])
      else if left = 0 then (Except.error e, 1, [])
      else
        let rest := retryLoop op delay (attempt + 1) left
        (rest.1, rest.2.1 + 1, delay * 2 ^ (attempt - 1) :: rest.2.2)

/-- Embedding of `ErrorHandler.retryOperation` (`errors.ts` lines
105-137): run the loop from attempt 1 with `maxRetries` attempts allowed
(the source defaults are `maxRetries = 3`, `delay = 1000`). -/
def retryOperation {α : Type} (op : ℕ → Except AppError α) (maxRetries : ℕ)
    (delay : ℚ) : Except AppError α × ℕ × List ℚ :=
  retryLoop op delay 1 maxRetries

/-- An operation that fails on every attempt with a retryable
`ExternalServiceError`; used to exercise the retry loop on a concrete
input. -/
def alwaysTimeout : ℕ → Except AppError Unit :=
  fun _ => Except.error (ExternalServiceError "TTS" "timeout" true)

/-- Word-count formula of `AIContentGenerationService.generateScript`
(`WindowsTTSService.js` embedded service, lines 206-207):
`Math.floor((duration / 60) * wordsPerMinute)` with `wordsPerMinute = 150`. -/
def targetWordCount (duration : ℚ) : ℤ := ⌊duration / 60 * 150⌋

/-- Embedding of `AIContentGenerationService.generateScript` (lines
194-251 of the embedded service in `WindowsTTSService.js`).  The OpenAI
completion is an external collaborator call, so its content is passed in
as `scriptContent` (`none` models a missing `choices[0]?.message?.content`,
`some []` an empty string — both are falsy in `!scriptContent`).  An empty
content throws `ExternalServiceError('OpenAI', 'No script content
generated')` (default `retryable = true`), which the surrounding catch
re-wraps into another default-retryable `ExternalServiceError`.  On
success the result carries the target word count handed to the prompt and
the collaborator content (the `parseScriptContent` packaging is out of
scope of the claims). -/
def generateScript (topic : List Char) (duration : ℚ)
    (scriptContent : Option (List Char)) : Except AppError (ℤ × List Char) :=
  if jsTrim topic = [] then
    Except.error (ValidationError "Topic is required")
  else if duration < 60 ∨ 1800 < duration then
    Except.error (ValidationError "Duration must be between 60 and 1800 seconds")
  else
    let targetWords : ℤ := targetWordCount duration
    match scriptContent with
    | some content =>
      if content = [] then
        Except.error (ExternalServiceError "OpenAI"
          ("Script generation failed: " ++
            (ExternalServiceError "OpenAI" "No script content generated" true).message) true)
      else
        Except.ok (targetWords, content)
    | none =>
      Except.error (ExternalServiceError "OpenAI"
        ("Script generation failed: " ++
          (ExternalServiceError "OpenAI" "No script content generated" true).message) true)

/-- Retryable flag of a result, `false` for successes; used to state
counterexamples without binders. -/
def resultRetryable {α : Type} : Except AppError α → Bool
  | Except.error e => e.retryable
  | Except.ok _ => false

/-- JavaScript `x || d` on numbers: `null`/`undefined` (here `none`) and
`0` are falsy and give `d` (`NaN` has no counterpart in `ℤ`). -/
def jsOr (x : Option ℤ) (d : ℤ) : ℤ :=
  match x with
  | none => d
  | some v => if v = 0 then d else v

/-- JavaScript `s || d` on strings: `undefined` and the empty string are
falsy. -/
def jsOrStr (s : Option String) (d : String) : String :=
  match s with
  | none => d
  | some v => if v = "" then d else v

/-- Result mapping of `searchUnsplashImages` (`VisualContentService.ts`
lines 119-125): every returned image gets the fixed default slice
duration of 5 seconds (`startTime` is set later by the allocator). -/
def unsplashImageResult (url : String) : VisualContent :=
  ⟨VisualType.image, url, 5, 0⟩

/-- List-level mapping of the Unsplash search results. -/
def searchUnsplashImages (urls : List String) : List VisualContent :=
  urls.map unsplashImageResult

/-- Result mapping of `searchPexelsVideos` (`VisualContentService.ts`
lines 159-172): each video's slice duration is
`Math.min(video.duration || 10, 15)` — native duration capped at 15
seconds, with a missing or zero native duration replaced by 10. -/
def pexelsVideoResult (link : String) (nativeDuration : Option ℤ) : VisualContent :=
  ⟨VisualType.video, link, min (jsOr nativeDuration 10) 15, 0⟩

/-- List-level mapping of the Pexels search results (link, native
duration). -/
def searchPexelsVideos (vids : List (String × Option ℤ)) : List VisualContent :=
  vids.map (fun v => pexelsVideoResult v.1 v.2)

/-- Embedding of `generatePlaceholderImages` (`VisualContentService.ts`
lines 182-197): `count` placeholder images of 5 seconds each, cycling
through the keywords (`keywords[i % keywords.length] || 'placeholder'`;
the URL-encoding of the keyword is kept abstract). -/
def generatePlaceholderImages (keywords : List String) (count : ℕ) : List VisualContent :=
  (List.range count).map (fun i =>
    let keyword := jsOrStr (keywords.get? (i % keywords.length)) "placeholder"
    ⟨VisualType.image,
      "https://via.placeholder.com/1920x1080/4A90E2/FFFFFF?text=" ++ keyword, 5, 0⟩)

/-- The sentence-delimiter class of the regex `/[.!?]+/` used by
`TextToSpeechService.splitTextIntoChunks`. -/
def isSentencePunct (c : Char) : Bool := c == '.' || c == '!' || c == '?'

/-- JavaScript `String.prototype.split` on a single-character class: the
pieces between delimiter occurrences.  Adjacent delimiters yield empty
pieces where the regex `/[.!?]+/` (a maximal run) would merge them, but
the chunking loop skips empty sentences (`if (!trimmedSentence)
continue`), so the two splits are interchangeable there; for the word
split `split(' ')` this is the exact semantics. -/
def jsSplit (p : Char → Bool) : List Char → List (List Char)
  | [] => [[]]
  | c :: l =>
    if p c then [] :: jsSplit p l
    else
      match jsSplit p l with
      | [] => [[c]]
      | w :: ws => (c :: w) :: ws

/-- JavaScript `acc += (acc ? ' ' : '') + w`: append with a single space
separator unless the accumulator is empty. -/
def joinSp (acc w : List Char) : List Char :=
  if acc = [] then w else acc ++ ' ' :: w

/-- Embedding of the inner word loop of `splitTextIntoChunks`
(`TextToSpeechService.ts` lines 299-314): walk the words of an oversized
sentence, pushing (trimmed) word chunks whenever the next word would
overflow the limit.  Returns the chunks pushed so far and the pending
`wordChunk`. -/
def wordLoop (maxChunkSize : ℕ) :
    List (List Char) → List (List Char) → List Char → List (List Char) × List Char
  | [], chunks, wordChunk => (chunks, wordChunk)
  | w :: ws, chunks, wordChunk =>
    if maxChunkSize < wordChunk.length + w.length + 1 then
      wordLoop maxChunkSize ws
        (if wordChunk = [] then chunks else chunks ++ [jsTrim wordChunk]) (joinSp [] w)
    else
      wordLoop maxChunkSize ws chunks (joinSp wordChunk w)

/-- Embedding of the sentence loop of `splitTextIntoChunks`
(`TextToSpeechService.ts` lines 285-321): accumulate sentences (trimmed,
with a `'.'` re-appended) into `currentChunk`, pushing the (trimmed)
accumulator when the next sentence would overflow the limit and
word-splitting a sentence that alone exceeds the limit. -/
def sentenceLoop (maxChunkSize : ℕ) :
    List (List Char) → List (List Char) → List Char → List (List Char) × List Char
  | [], chunks, currentChunk => (chunks, currentChunk)
  | s :: ss, chunks, currentChunk =>
    let trimmedSentence := jsTrim s
    if trimmedSentence = [] then sentenceLoop maxChunkSize ss chunks currentChunk
    else
      let swp := trimmedSentence ++ ['.']
      if maxChunkSize < currentChunk.length + swp.length then
        let chunks1 := if currentChunk = [] then chunks else chunks ++ [jsTrim currentChunk]
        if maxChunkSize < swp.length then
          let r := wordLoop maxChunkSize (jsSplit (fun c => c == ' ') swp) chunks1 []
          sentenceLoop maxChunkSize ss r.1 r.2
        else
          sentenceLoop maxChunkSize ss chunks1 swp
      else
        sentenceLoop maxChunkSize ss chunks (joinSp currentChunk swp)

/-- Embedding of `TextToSpeechService.splitTextIntoChunks`
(`TextToSpeechService.ts` lines 276-328; the source default for
`maxChunkSize` is 5000). -/
def splitTextIntoChunks (text : List Char) (maxChunkSize : ℕ) : List (List Char) :=
  if text.length ≤ maxChunkSize then [text]
  else
    let sentences := jsSplit isSentencePunct text
    let r := sentenceLoop maxChunkSize sentences [] []
    if r.2 = [] then r.1 else r.1 ++ [jsTrim r.2]

/-- The words of a string: the nonempty pieces of the split on the space
character (used to state that chunking preserves the text's word
sequence). -/
def wordsOf (l : List Char) : List (List Char) :=
  (jsSplit (fun c => c == ' ') l).filter (fun w => !w.isEmpty)

/-- The processed sentences of the input text, in order: each sentence
piece that trims to nonempty, trimmed and with a `'.'` appended —
exactly what the sentence loop feeds into the chunks. -/
def keptOf (ss : List (List Char)) : List (List Char) :=
  ss.filterMap (fun s => if jsTrim s = [] then none else some (jsTrim s ++ ['.']))

/-- The kept sentences of a text (see `keptOf`). -/
def keptSentences (text : List Char) : List (List Char) :=
  keptOf (jsSplit isSentencePunct text)

/-- All words of a chunk list, in order. -/
def chunkWords (chunks : List (List Char)) : List (List Char) :=
  (chunks.map wordsOf).flatten

/-- Texts whose only whitespace is the plain space character (so `trim`
interacts with the space-based word splitting in the obvious way). -/
abbrev OnlySpaceWS (l : List Char) : Prop := ∀ c ∈ l, c.isWhitespace → c = ' '

/-- A produced chunk is either within one character of the limit (the
joining space is not counted by the overflow check) or is a single
overlong word (contains no space). -/
def GoodChunk (maxChunkSize : ℕ) (c : List Char) : Prop :=
  c.length ≤ maxChunkSize + 1 ∨ ' ' ∉ c

/-- Invariant of the pending word chunk: within the limit or a single
word. -/
def GoodWc (maxChunkSize : ℕ) (wc : List Char) : Prop :=
  wc.length ≤ maxChunkSize ∨ ' ' ∉ wc

/-- Task record stored by `TaskQueueService` (`src/unnamed/part_003`):
only the fields the claims inspect are kept.  `status` is a raw string so
that a caller-supplied record may carry any status. -/
structure QTask where
  id : String
  status : String
  topic : String
deriving DecidableEq, Repr

/-- The in-memory `Map` of `TaskQueueService`, as an insertion-ordered
association list. -/
abbrev TaskMap := List (String × QTask)

/-- JavaScript `Map.prototype.set`: replace in place when the key exists,
else append. -/
def mapSet (m : TaskMap) (k : String) (v : QTask) : TaskMap :=
  if m.any (fun p => p.1 == k) then
    m.map (fun p => if p.1 == k then (k, v) else p)
  else m ++ [(k, v)]

/-- Embedding of `TaskQueueService.addTask` (`part_003` lines 14-31):
`taskId = task.id || uuidv4()` (the fresh uuid is an external input), and
the stored record is `{ ...task, id: taskId, status: 'pending' }` — the
caller-supplied status is overwritten. -/
def addTask (m : TaskMap) (task : QTask) (generatedId : String) : TaskMap :=
  let taskId := if task.id = "" then generatedId else task.id
  mapSet m taskId { task with id := taskId, status := "pending" }

/-- One status mutation of `TaskQueueService.processTask` (`part_003`
lines 56-84): fetch the task by id, set its status, store it back; a
missing id is a no-op (`if (!task) return`). -/
def setStatus (m : TaskMap) (taskId : String) (status : String) : TaskMap :=
  m.map (fun p => if p.1 == taskId then (p.1, { p.2 with status := status }) else p)

/-- The atomic registry updates of `TaskQueueService`: `addTask`, and the
three status writes of `processTask` ('processing' on entry, then
'completed' on success or 'failed' on error).  Any interleaving of
concurrent `addTask`/`processTask` executions is a sequence of these. -/
inductive QueueStep : TaskMap → TaskMap → Prop
  | add (m : TaskMap) (task : QTask) (generatedId : String) :
      QueueStep m (addTask m task generatedId)
  | markProcessing (m : TaskMap) (taskId : String) :
      QueueStep m (setStatus m taskId "processing")
  | markCompleted (m : TaskMap) (taskId : String) :
      QueueStep m (setStatus m taskId "completed")
  | markFailed (m : TaskMap) (taskId : String) :
      QueueStep m (setStatus m taskId "failed")

/-- States of the registry reachable from the empty `Map` by any
interleaving of `addTask`/`processTask` steps. -/
inductive QueueReachable : TaskMap → Prop
  | init : QueueReachable []
  | step {m m' : TaskMap} : QueueReachable m → QueueStep m m' → QueueReachable m'

/-- Embedding of `TaskQueueService.getQueueStats` (`part_003` lines
104-113): the four status counts (waiting, active, completed, failed). -/
def getQueueStats (m : TaskMap) : ℕ × ℕ × ℕ × ℕ :=
  let tasks := m.map Prod.snd
  ((tasks.filter (fun t => t.status == "pending")).length,
   (tasks.filter (fun t => t.status == "processing")).length,
   (tasks.filter (fun t => t.status == "completed")).length,
   (tasks.filter (fun t => t.status == "failed")).length)

/-- Invariant of the registry: every stored task's status is one of the
four lifecycle strings. -/
def ValidStatuses (m : TaskMap) : Prop :=
  ∀ p ∈ m, p.2.status = "pending" ∨ p.2.status = "processing" ∨
    p.2.status = "completed" ∨ p.2.status = "failed"

/- ------------------------------------------------------------------ -/
/- Lemmas about the timeline allocator.                                -/
/- ------------------------------------------------------------------ -/

theorem assignLoop_length_le (visuals : List VisualContent) (T : ℤ) :
    ∀ gas c i, (assignLoop visuals T c i gas).length ≤ gas := by
  intro gas
  induction gas with
  | zero => intro c i; simp [assignLoop]
  | succ g ih =>
    intro c i
    simp only [assignLoop]
    split
    · split
      · simpa using Nat.succ_le_succ (ih _ _)
      · exact (ih _ _).trans (Nat.le_succ g)
    · simp

theorem assignLoop_chainFrom (visuals : List VisualContent) (T : ℤ) :
    ∀ gas c i, ChainFrom c (assignLoop visuals T c i gas) := by
  intro gas
  induction gas with
  | zero => intro c i; simp [assignLoop, ChainFrom]
  | succ g ih =>
    intro c i
    simp only [assignLoop]
    split
    · split
      · refine ⟨rfl, ?_, ?_⟩
        · assumption
        · exact ih _ _
      · exact ih _ _
    · simp [ChainFrom]

theorem chainFrom_le (l : List VisualContent) :
    ∀ t, ChainFrom t l → ∀ v ∈ l, t ≤ v.startTime := by
  induction l with
  | nil => intro t _ v hv; cases hv
  | cons x xs ih =>
    intro t h v hv
    obtain ⟨hx, hd, hrest⟩ := h
    rcases List.mem_cons.mp hv with rfl | hv'
    · exact le_of_eq hx.symm
    · have := ih (t + x.duration) hrest v hv'
      linarith

theorem chainFrom_pairwise (l : List VisualContent) :
    ∀ t, ChainFrom t l → l.Pairwise (fun a b => a.startTime < b.startTime) := by
  induction l with
  | nil => intro t _; exact List.Pairwise.nil
  | cons x xs ih =>
    intro t h
    obtain ⟨hx, hd, hrest⟩ := h
    refine List.Pairwise.cons ?_ (ih _ hrest)
    intro b hb
    have := chainFrom_le xs (t + x.duration) hrest b hb
    have : t + x.duration ≤ b.startTime := this
    rw [hx]
    linarith

theorem assignLoop_sum_le (visuals : List VisualContent) (T : ℤ) :
    ∀ gas c i, c ≤ T → c + sumDur (assignLoop visuals T c i gas) ≤ T := by
  intro gas
  induction gas with
  | zero => intro c i h; simpa [assignLoop, sumDur] using h
  | succ g ih =>
    intro c i hc
    simp only [assignLoop]
    split
    · split
      · rename_i hlt hpos
        have hδ : min (visuals.getD (i % visuals.length) dummyVisual).duration (T - c) ≤ T - c :=
          min_le_right _ _
        have := ih (c + min (visuals.getD (i % visuals.length) dummyVisual).duration (T - c))
          (i + 1) (by linarith)
        simp only [sumDur, List.map_cons, List.sum_cons] at this ⊢
        linarith [this]
      · exact ih c (i + 1) hc
    · simpa [sumDur] using hc

theorem remSum_nonneg (visuals : List VisualContent)
    (hpos : ∀ v ∈ visuals, 0 < v.duration) :
    ∀ gas i, 0 ≤ remSum visuals i gas := by
  intro gas
  induction gas with
  | zero => intro i; simp [remSum]
  | succ g ih =>
    intro i
    simp only [remSum]
    have hd : 0 ≤ (visuals.getD (i % visuals.length) dummyVisual).duration := by
      rcases List.eq_nil_or_concat visuals with h | _
      · simp [h, dummyVisual, List.getD]
      · have hne : visuals ≠ [] := by
          rintro rfl; rename_i hc; obtain ⟨_, _, h⟩ := hc; simp at h
        have hlen : 0 < visuals.length := List.length_pos.mpr hne
        have hmem : visuals.getD (i % visuals.length) dummyVisual ∈ visuals := by
          rw [List.getD_eq_getElem _ _ (Nat.mod_lt _ hlen)]
          exact List.getElem_mem _
        exact le_of_lt (hpos _ hmem)
    have := ih (i + 1)
    linarith

theorem assignLoop_sum_eq (visuals : List VisualContent) (T : ℤ)
    (hpos : ∀ v ∈ visuals, 0 < v.duration) :
    ∀ gas c i, c ≤ T → T ≤ c + remSum visuals i gas →
      c + sumDur (assignLoop visuals T c i gas) = T := by
  intro gas
  induction gas with
  | zero =>
    intro c i hle hge
    simp only [remSum, add_zero] at hge
    have : c = T := le_antisymm hle hge
    simpa [assignLoop, sumDur]
  | succ g ih =>
    intro c i hle hge
    simp only [assignLoop]
    split
    · rename_i hlt
      -- the asset list cannot be empty here, else remSum = 0 contradicts c < T
      have hne : visuals ≠ [] := by
        rintro rfl
        simp only [remSum] at hge
        have hz : ∀ gas i, remSum ([] : List VisualContent) i gas = 0 := by
          intro gas
          induction gas with
          | zero => intro i; simp [remSum]
          | succ g ih => intro i; simp [remSum, dummyVisual, List.getD, ih]
        rw [hz] at hge
        simp [dummyVisual, List.getD] at hge
        linarith
      have hlen : 0 < visuals.length := List.length_pos.mpr hne
      have hmem : visuals.getD (i % visuals.length) dummyVisual ∈ visuals := by
        rw [List.getD_eq_getElem _ _ (Nat.mod_lt _ hlen)]
        exact List.getElem_mem _
      have hd : 0 < (visuals.getD (i % visuals.length) dummyVisual).duration := hpos _ hmem
      have hδpos : 0 < min (visuals.getD (i % visuals.length) dummyVisual).duration (T - c) := by
        have : (0:ℤ) < T - c := by linarith
        exact lt_min hd this
      rw [if_pos hδpos]
      set d := (visuals.getD (i % visuals.length) dummyVisual).duration with hdref
      set δ := min d (T - c) with hδ
      have hδle : δ ≤ T - c := min_le_right _ _
      have hrs : remSum visuals i (g + 1) = d + remSum visuals (i + 1) g := by
        simp [remSum, hdref]
      rcases le_or_lt d (T - c) with hcase | hcase
      · have hδd : δ = d := min_eq_left hcase
        have h1 : c + δ ≤ T := by linarith
        have h2 : T ≤ c + δ + remSum visuals (i + 1) g := by
          rw [hδd]; rw [hrs] at hge; linarith
        have := ih (c + δ) (i + 1) h1 h2
        simp only [sumDur, List.map_cons, List.sum_cons] at this ⊢
        linarith
      · have hδT : δ = T - c := min_eq_right (le_of_lt hcase)
        have h1 : c + δ ≤ T := by linarith
        have h2 : T ≤ c + δ + remSum visuals (i + 1) g := by
          have := remSum_nonneg visuals hpos g (i + 1)
          linarith [hδT]
        have := ih (c + δ) (i + 1) h1 h2
        simp only [sumDur, List.map_cons, List.sum_cons] at this ⊢
        linarith
    · rename_i hge'
      push_neg at hge'
      have : c = T := le_antisymm hle hge'
      simpa [sumDur]

theorem assignLoop_mem_source (visuals : List VisualContent) (T : ℤ)
    (hne : visuals ≠ []) :
    ∀ gas c i, ∀ s ∈ assignLoop visuals T c i gas,
      ∃ x ∈ visuals, s.type = x.type ∧ s.source = x.source := by
  intro gas
  induction gas with
  | zero => intro c i s hs; simp [assignLoop] at hs
  | succ g ih =>
    intro c i s hs
    simp only [assignLoop] at hs
    split at hs
    · split at hs
      · rcases List.mem_cons.mp hs with rfl | hs'
        · have hlen : 0 < visuals.length := List.length_pos.mpr hne
          refine ⟨visuals.getD (i % visuals.length) dummyVisual, ?_, rfl, rfl⟩
          rw [List.getD_eq_getElem _ _ (Nat.mod_lt _ hlen)]
          exact List.getElem_mem _
        · exact ih _ _ s hs'
      · exact ih _ _ s hs
    · simp at hs

/-- One full cycle of `remSum`, counted from a position `i` inside the
cycle: the remaining durations of the current cycle are the durations of
`visuals.drop i`, provided the index is congruent to `i` modulo the
length. -/
theorem remSum_cycle_from (visuals : List VisualContent) (m : ℕ) :
    ∀ k i, i + k = visuals.length →
      remSum visuals (visuals.length * m + i) k = sumDur (visuals.drop i) := by
  intro k
  induction k with
  | zero =>
    intro i hi
    have : i = visuals.length := by omega
    simp [remSum, this, sumDur]
  | succ k ih =>
    intro i hi
    have hlen : 0 < visuals.length := by omega
    have hi_lt : i < visuals.length := by omega
    have hmod : (visuals.length * m + i) % visuals.length = i := by
      rw [Nat.mul_add_mod]
      exact Nat.mod_eq_of_lt hi_lt
    simp only [remSum, hmod]
    have hget : visuals.getD i dummyVisual = visuals[i] := by
      rw [List.getD_eq_getElem _ _ hi_lt]
    have hstep : visuals.length * m + i + 1 = visuals.length * m + (i + 1) := by omega
    rw [hget, hstep, ih (i + 1) (by omega)]
    have hdrop : visuals.drop i = visuals[i] :: visuals.drop (i + 1) :=
      List.drop_eq_getElem_cons hi_lt
    rw [hdrop]
    simp only [sumDur, List.map_cons, List.sum_cons]

theorem remSum_cycles (visuals : List VisualContent) :
    ∀ k m, remSum visuals (visuals.length * m) (visuals.length * k) =
      k * sumDur visuals := by
  intro k
  induction k with
  | zero => intro m; simp [remSum]
  | succ k ih =>
    intro m
    have hsplit : ∀ g₁ g₂ i, remSum visuals i (g₁ + g₂) =
        remSum visuals i g₁ + remSum visuals (i + g₁) g₂ := by
      intro g₁
      induction g₁ with
      | zero => intro g₂ i; simp [remSum]
      | succ g ihg =>
        intro g₂ i
        have h1 : g + 1 + g₂ = (g + g₂) + 1 := by omega
        rw [h1]
        simp only [remSum]
        rw [ihg g₂ (i + 1)]
        have harg : i + 1 + g = i + (g + 1) := by omega
        rw [harg]
        ring
    have hmul : visuals.length * (k + 1) = visuals.length + visuals.length * k := by ring
    rw [hmul, hsplit]
    have hone : remSum visuals (visuals.length * m) visuals.length = sumDur visuals := by
      have := remSum_cycle_from visuals m visuals.length 0 (by omega)
      simpa using this
    have hrest : remSum visuals (visuals.length * m + visuals.length) (visuals.length * k) =
        k * sumDur visuals := by
      have harg : visuals.length * m + visuals.length = visuals.length * (m + 1) := by ring
      rw [harg, ih (m + 1)]
    rw [hone, hrest]
    push_cast
    ring

theorem remSum_three_cycles (visuals : List VisualContent) :
    remSum visuals 0 (visuals.length * 3) = 3 * sumDur visuals := by
  have := remSum_cycles visuals 3 0
  simpa using this

/- ------------------------------------------------------------------ -/
/- Claim C1                                                            -/
/- ------------------------------------------------------------------ -/

/-- C1 (amended): for every asset list and every target duration, the
Timeline Allocator returns slices that start at 0, are contiguous (each
slice's startTime plus its duration is the next slice's startTime) and
strictly ordered by startTime — unconditionally; for every nonnegative
target the durations sum to at most the target (in particular in the
non-coverage case, where the timeline falls short); and the sum equals
the target exactly whenever additionally every asset duration is
positive and three full cycles of the asset list cover the target
(`T ≤ 3 * sumDur visuals`).  The claim's unconditional "sum to the
target within 1 second" is false (see the counterexample). -/
theorem assignTimingToVisuals_spec (visuals : List VisualContent) (T : ℤ) :
    ChainFrom 0 (assignTimingToVisuals visuals T) ∧
    (assignTimingToVisuals visuals T).Pairwise (fun a b => a.startTime < b.startTime) ∧
    (0 ≤ T → sumDur (assignTimingToVisuals visuals T) ≤ T) ∧
    ((∀ v ∈ visuals, 0 < v.duration) → 0 ≤ T → T ≤ 3 * sumDur visuals →
      sumDur (assignTimingToVisuals visuals T) = T) := by
  refine ⟨?_, ?_, ?_, ?_⟩
  · unfold assignTimingToVisuals
    split
    · simp [ChainFrom]
    · exact assignLoop_chainFrom visuals T _ 0 0
  · unfold assignTimingToVisuals
    split
    · simp
    · exact chainFrom_pairwise _ 0 (assignLoop_chainFrom visuals T _ 0 0)
  · intro hT
    unfold assignTimingToVisuals
    split
    · simpa [sumDur] using hT
    · have := assignLoop_sum_le visuals T (visuals.length * 3) 0 0 hT
      linarith
  · intro hpos hT hcov
    unfold assignTimingToVisuals
    split
    · rename_i hemp
      have hnil : visuals = [] := List.isEmpty_iff.mp hemp
      subst hnil
      have hT0 : T = 0 := by
        simp [sumDur] at hcov
        linarith
      simp [sumDur, hT0]
    · have := assignLoop_sum_eq visuals T hpos (visuals.length * 3) 0 0 hT
        (by rw [remSum_three_cycles]; linarith)
      linarith

/-- C1 counterexample: with a single 5-second image asset and a target of
100 seconds the allocator's output sums to 15 seconds, which is not
within 1 second of the target. -/
theorem assignTimingToVisuals_sum_not_within_one :
    sumDur (assignTimingToVisuals [⟨VisualType.image, "img", 5, 0⟩] 100) = 15 ∧
    ¬ (100 - sumDur (assignTimingToVisuals [⟨VisualType.image, "img", 5, 0⟩] 100) ≤ 1) := by
  constructor <;> decide

/-- C1 witness: the amended theorem applied to one 5-second image asset
and a 10-second target, with the sum-bound and exactness hypotheses
discharged there. -/
theorem assignTimingToVisuals_spec_witness :
    ChainFrom 0 (assignTimingToVisuals [⟨VisualType.image, "img", 5, 0⟩] 10) ∧
    (assignTimingToVisuals [⟨VisualType.image, "img", 5, 0⟩] 10).Pairwise
      (fun a b => a.startTime < b.startTime) ∧
    sumDur (assignTimingToVisuals [⟨VisualType.image, "img", 5, 0⟩] 10) ≤ 10 ∧
    sumDur (assignTimingToVisuals [⟨VisualType.image, "img", 5, 0⟩] 10) = 10 :=
  ⟨(assignTimingToVisuals_spec [⟨VisualType.image, "img", 5, 0⟩] 10).1,
   (assignTimingToVisuals_spec [⟨VisualType.image, "img", 5, 0⟩] 10).2.1,
   (assignTimingToVisuals_spec [⟨VisualType.image, "img", 5, 0⟩] 10).2.2.1 (by decide),
   (assignTimingToVisuals_spec [⟨VisualType.image, "img", 5, 0⟩] 10).2.2.2
     (by decide) (by decide) (by decide)⟩

/- ------------------------------------------------------------------ -/
/- Claim C2                                                            -/
/- ------------------------------------------------------------------ -/

/-- C2 (amended): the allocator wraps around and reuses assets from the
start of the list for at most 3 full cycles (every returned slice is cut
from an asset of the input list and at most `3 * visuals.length` slices
are produced), and when the accumulated duration is still short of the
target after 3 cycles it returns the accumulated timeline — shorter than
the target — rather than a Fatal `AllocationError` (no error value exists
in this code path; see the counterexample). -/
theorem assignTimingToVisuals_cycle_bound (visuals : List VisualContent) (T : ℤ)
    (hT : 0 ≤ T) :
    (assignTimingToVisuals visuals T).length ≤ 3 * visuals.length ∧
    sumDur (assignTimingToVisuals visuals T) ≤ T ∧
    ∀ s ∈ assignTimingToVisuals visuals T,
      ∃ x ∈ visuals, s.type = x.type ∧ s.source = x.source := by
  unfold assignTimingToVisuals
  split
  · simp [sumDur, hT]
  · rename_i hemp
    have hne : visuals ≠ [] := by
      intro h; exact hemp (by simp [h])
    refine ⟨?_, ?_, ?_⟩
    · have := assignLoop_length_le visuals T (visuals.length * 3) 0 0
      omega
    · have := assignLoop_sum_le visuals T (visuals.length * 3) 0 0 hT
      linarith
    · exact assignLoop_mem_source visuals T hne _ 0 0

/-- C2 counterexample: one 5-second image asset against a 100-second
target.  After 3 full cycles the loop stops and the function returns the
three accumulated slices — a successful result summing to 15 < 100 — and
no error of any kind: the source of `assignTimingToVisuals` contains no
throw statement and no `AllocationError` exists in the repository. -/
theorem assignTimingToVisuals_returns_short_timeline :
    assignTimingToVisuals [⟨VisualType.image, "img", 5, 0⟩] 100 =
      [⟨VisualType.image, "img", 5, 0⟩, ⟨VisualType.image, "img", 5, 5⟩,
        ⟨VisualType.image, "img", 5, 10⟩] ∧
    sumDur (assignTimingToVisuals [⟨VisualType.image, "img", 5, 0⟩] 100) < 100 := by
  constructor <;> decide

/-- C2 witness: the amended theorem applied to one 5-second image asset
and a 100-second target. -/
theorem assignTimingToVisuals_cycle_bound_witness :
    (assignTimingToVisuals [⟨VisualType.image, "img", 5, 0⟩] 100).length ≤ 3 * 1 ∧
    sumDur (assignTimingToVisuals [⟨VisualType.image, "img", 5, 0⟩] 100) ≤ 100 ∧
    ∀ s ∈ assignTimingToVisuals [⟨VisualType.image, "img", 5, 0⟩] 100,
      ∃ x ∈ [(⟨VisualType.image, "img", 5, 0⟩ : VisualContent)],
        s.type = x.type ∧ s.source = x.source :=
  assignTimingToVisuals_cycle_bound [⟨VisualType.image, "img", 5, 0⟩] 100 (by decide)

/- ------------------------------------------------------------------ -/
/- Claim C9                                                            -/
/- ------------------------------------------------------------------ -/

/-- C9: the allocator terminates on every input — the loop guard
`visualIndex < visuals.length * 3` bounds the iteration count, modelled
here by the structural counter `gas = visuals.length * 3`, so for every
asset list (empty lists and zero or negative durations included) and
every target duration the function is total and produces at most
`3 * visuals.length` slices. -/
theorem assignTimingToVisuals_terminates (visuals : List VisualContent) (T : ℤ) :
    (assignTimingToVisuals visuals T).length ≤ 3 * visuals.length := by
  unfold assignTimingToVisuals
  split
  · simp
  · have := assignLoop_length_le visuals T (visuals.length * 3) 0 0
    omega

/-- C9 witness: the bound evaluated on a degenerate input (an asset with
zero duration and one with negative duration, negative target). -/
theorem assignTimingToVisuals_terminates_witness :
    (assignTimingToVisuals
      [⟨VisualType.image, "a", 0, 0⟩, ⟨VisualType.video, "b", -3, 0⟩] (-5)).length ≤
      3 * 2 :=
  assignTimingToVisuals_terminates
    [⟨VisualType.image, "a", 0, 0⟩, ⟨VisualType.video, "b", -3, 0⟩] (-5)

/- ------------------------------------------------------------------ -/
/- Claim C3                                                            -/
/- ------------------------------------------------------------------ -/

/-- C3 (amended): for every valid topic and duration, when the visual
search yields zero candidate assets `findVisualContent` returns
successfully with the empty visual list — it does not fail with a Fatal
error (the empty-input branch of `assignTimingToVisuals` returns `[]` and
no emptiness check exists in `findVisualContent`). -/
theorem findVisualContent_empty_search (topic : List Char) (duration : ℤ)
    (htopic : jsTrim topic ≠ []) (h30 : 30 ≤ duration) (h1800 : duration ≤ 1800) :
    findVisualContent topic duration [] = Except.ok [] := by
  unfold findVisualContent
  rw [if_neg htopic, if_neg (by push_neg; constructor <;> linarith)]
  simp [assignTimingToVisuals]

/-- C3 counterexample: a valid topic and duration with an empty search
result: the visual stage returns `Except.ok []` — a successful, empty
visual list — where the claim requires a Fatal error. -/
theorem findVisualContent_empty_search_ok :
    findVisualContent ['t', 'e', 's', 't'] 60 [] = Except.ok [] := by
  rfl

/-- C3 witness: the amended theorem applied to the topic `"abc"` and a
90-second duration. -/
theorem findVisualContent_empty_search_witness :
    findVisualContent ['a', 'b', 'c'] 90 [] = Except.ok [] :=
  findVisualContent_empty_search ['a', 'b', 'c'] 90 (by decide) (by decide) (by decide)

/- ------------------------------------------------------------------ -/
/- Lemmas about the retry loop.                                        -/
/- ------------------------------------------------------------------ -/

theorem retryLoop_calls_le {α : Type} (op : ℕ → Except AppError α) (delay : ℚ) :
    ∀ f a, (retryLoop op delay a f).2.1 ≤ f := by
  intro f
  induction f with
  | zero => intro a; simp [retryLoop]
  | succ l ih =>
    intro a
    simp only [retryLoop]
    cases hop : op a with
    | ok v => simp
    | error e =>
      by_cases hr : e.retryable = false
      · simp [hr]
      · by_cases hl : l = 0
        · simp [hr, hl]
        · simp [hr, hl]
          have := ih (a + 1)
          omega

theorem retryLoop_calls_pos {α : Type} (op : ℕ → Except AppError α) (delay : ℚ) :
    ∀ f a, 1 ≤ f → 1 ≤ (retryLoop op delay a f).2.1 := by
  intro f
  cases f with
  | zero => intro a h; omega
  | succ l =>
    intro a _
    simp only [retryLoop]
    cases hop : op a with
    | ok v => simp
    | error e =>
      by_cases hr : e.retryable = false
      · simp [hr]
      · by_cases hl : l = 0
        · simp [hr, hl]
        · simp [hr, hl]

theorem retryLoop_sleeps {α : Type} (op : ℕ → Except AppError α) (delay : ℚ) :
    ∀ f a, (retryLoop op delay a f).2.2 =
      (List.range' a ((retryLoop op delay a f).2.1 - 1)).map
        (fun k => delay * 2 ^ (k - 1)) := by
  intro f
  induction f with
  | zero => intro a; simp [retryLoop]
  | succ l ih =>
    intro a
    simp only [retryLoop]
    cases hop : op a with
    | ok v => simp
    | error e =>
      by_cases hr : e.retryable = false
      · simp [hr]
      · by_cases hl : l = 0
        · simp [hr, hl]
        · obtain ⟨c, hc⟩ : ∃ c, (retryLoop op delay (a + 1) l).2.1 = c + 1 :=
            ⟨(retryLoop op delay (a + 1) l).2.1 - 1,
              by have := retryLoop_calls_pos op delay l (a + 1) (by omega); omega⟩
          simp [hr, hl, hc]
          rw [List.range'_succ, List.map_cons]
          rw [ih (a + 1), hc]
          simp

theorem retryLoop_fatal {α : Type} (op : ℕ → Except AppError α) (delay : ℚ) :
    ∀ f a j e, a ≤ j → j < a + f →
      (∀ k, a ≤ k → k < j → ∃ e', op k = Except.error e' ∧ e'.retryable = true) →
      op j = Except.error e → e.retryable = false →
      retryLoop op delay a f =
        (Except.error e, j - a + 1,
          (List.range' a (j - a)).map fun k => delay * 2 ^ (k - 1)) := by
  intro f
  induction f with
  | zero => intro a j e h1 h2; omega
  | succ l ih =>
    intro a j e h1 h2 hpre hop hr
    by_cases haj : a = j
    · subst haj
      simp only [retryLoop]
      rw [hop]
      simp [hr]
    · have halt : a < j := lt_of_le_of_ne h1 haj
      obtain ⟨e', hope', hre'⟩ := hpre a le_rfl halt
      have hl : l ≠ 0 := by omega
      simp only [retryLoop]
      rw [hope']
      simp only [hre', hl, Bool.true_eq_false, if_false]
      have hrec := ih (a + 1) j e (by omega) (by omega)
        (fun k hk1 hk2 => hpre k (by omega) hk2) hop hr
      rw [hrec]
      have hc : j - (a + 1) + 1 + 1 = j - a + 1 := by omega
      have hs : j - a = (j - (a + 1)) + 1 := by omega
      simp only [hc, hs, List.range'_succ, List.map_cons]

theorem retryLoop_exhaust {α : Type} (op : ℕ → Except AppError α) (delay : ℚ) :
    ∀ f a, 1 ≤ f →
      (∀ k, a ≤ k → k < a + f → ∃ e', op k = Except.error e' ∧ e'.retryable = true) →
      ∃ e, op (a + f - 1) = Except.error e ∧
        retryLoop op delay a f =
          (Except.error e, f, (List.range' a (f - 1)).map fun k => delay * 2 ^ (k - 1)) := by
  intro f
  induction f with
  | zero => intro a h; omega
  | succ l ih =>
    intro a _ hall
    obtain ⟨e', hop', hre'⟩ := hall a le_rfl (by omega)
    by_cases hl : l = 0
    · subst hl
      refine ⟨e', by simpa using hop', ?_⟩
      simp only [retryLoop]
      rw [hop']
      simp [hre']
    · obtain ⟨e, hope, heq⟩ := ih (a + 1) (by omega)
        (fun k hk1 hk2 => hall k (by omega) (by omega))
      refine ⟨e, ?_, ?_⟩
      · have harg : a + 1 + l - 1 = a + (l + 1) - 1 := by omega
        rw [← harg]; exact hope
      · simp only [retryLoop]
        rw [hop']
        simp only [hre', hl, Bool.true_eq_false, if_false]
        rw [heq]
        have hs : l + 1 - 1 = (l - 1) + 1 := by omega
        simp only [hs, List.range'_succ, List.map_cons]

/- ------------------------------------------------------------------ -/
/- Claim C4                                                            -/
/- ------------------------------------------------------------------ -/

/-- C4: for every operation (given as the outcome of each 1-based
invocation) and every failure sequence, `ErrorHandler.retryOperation`
invokes the operation at most `maxRetries` times (first conjunct); the
delays slept are exactly `delay * 2 ^ (attempt - 1)` for the failed
attempts `1 … calls - 1`, i.e. exponential backoff before each
re-invocation (second conjunct); a non-retryable (Fatal) error at
attempt `j`, after retryable failures only, is rethrown immediately with
exactly `j` invocations and no further sleep (third conjunct); and when
every allowed attempt fails with a retryable error the last error is
rethrown after exactly `maxRetries` invocations (fourth conjunct). -/
theorem retryOperation_spec {α : Type} (op : ℕ → Except AppError α)
    (maxRetries : ℕ) (delay : ℚ) (hmax : 1 ≤ maxRetries) :
    (retryOperation op maxRetries delay).2.1 ≤ maxRetries ∧
    (retryOperation op maxRetries delay).2.2 =
      (List.range' 1 ((retryOperation op maxRetries delay).2.1 - 1)).map
        (fun k => delay * 2 ^ (k - 1)) ∧
    (∀ j e, 1 ≤ j → j ≤ maxRetries →
      (∀ k, 1 ≤ k → k < j → ∃ e', op k = Except.error e' ∧ e'.retryable = true) →
      op j = Except.error e → e.retryable = false →
      retryOperation op maxRetries delay =
        (Except.error e, j, (List.range' 1 (j - 1)).map fun k => delay * 2 ^ (k - 1))) ∧
    ((∀ k, 1 ≤ k → k ≤ maxRetries → ∃ e', op k = Except.error e' ∧ e'.retryable = true) →
      ∃ e, op maxRetries = Except.error e ∧
        retryOperation op maxRetries delay =
          (Except.error e, maxRetries,
            (List.range' 1 (maxRetries - 1)).map fun k => delay * 2 ^ (k - 1))) := by
  refine ⟨retryLoop_calls_le op delay maxRetries 1,
    retryLoop_sleeps op delay maxRetries 1, ?_, ?_⟩
  · intro j e h1 h2 hpre hop hr
    have hfat := retryLoop_fatal op delay maxRetries 1 j e h1 (by omega) hpre hop hr
    have hj : j - 1 + 1 = j := by omega
    rw [retryOperation, hfat, hj]
  · intro hall
    obtain ⟨e, hope, heq⟩ := retryLoop_exhaust op delay maxRetries 1 hmax
      (fun k hk1 hk2 => hall k hk1 (by omega))
    refine ⟨e, ?_, ?_⟩
    · have harg : 1 + maxRetries - 1 = maxRetries := by omega
      rw [← harg]; exact hope
    · rw [retryOperation, heq]

/-- C4 witness: an operation that always fails with a retryable
`ExternalServiceError`, `maxRetries = 3`, `delay = 1`: the budget is
exhausted after exactly 3 invocations, the last error is rethrown, and
the sleeps are `1 * 2 ^ 0` and `1 * 2 ^ 1`. -/
theorem retryOperation_spec_witness :
    ∃ e, alwaysTimeout 3 = Except.error e ∧
      retryOperation alwaysTimeout 3 1 =
        (Except.error e, 3, (List.range' 1 2).map fun k => (1:ℚ) * 2 ^ (k - 1)) :=
  (retryOperation_spec alwaysTimeout 3 1 (by decide)).2.2.2
    (fun k _ _ => ⟨ExternalServiceError "TTS" "timeout" true, rfl, rfl⟩)

/- ------------------------------------------------------------------ -/
/- Claim C6                                                            -/
/- ------------------------------------------------------------------ -/

/-- C6: for every topic, duration and collaborator output, the script
stage rejects an empty or whitespace-only topic with a `ValidationError`,
rejects an out-of-range duration (outside 60-1800 s) with a
`ValidationError` — in both cases independently of the collaborator
output, i.e. before delegating — and for valid inputs uses the target
word count `⌊duration / 60 * 150⌋` (150 words per minute) and returns the
collaborator content. -/
theorem generateScript_spec (topic : List Char) (duration : ℚ)
    (content : Option (List Char)) :
    ((∀ c ∈ topic, c.isWhitespace = true) →
      generateScript topic duration content =
        Except.error (ValidationError "Topic is required")) ∧
    (jsTrim topic ≠ [] → (duration < 60 ∨ 1800 < duration) →
      generateScript topic duration content =
        Except.error (ValidationError "Duration must be between 60 and 1800 seconds")) ∧
    (jsTrim topic ≠ [] → 60 ≤ duration → duration ≤ 1800 →
      targetWordCount duration = ⌊duration / 60 * 150⌋ ∧
      ∀ c, content = some c → c ≠ [] →
        generateScript topic duration content =
          Except.ok (targetWordCount duration, c)) := by
  refine ⟨?_, ?_, ?_⟩
  · intro hws
    have hdrop : topic.dropWhile Char.isWhitespace = [] :=
      List.dropWhile_eq_nil_iff.mpr hws
    have htr : jsTrim topic = [] := by simp [jsTrim, hdrop]
    simp [generateScript, htr]
  · intro h hd
    simp [generateScript, h, hd]
  · intro h h60 h1800
    have hd : ¬(duration < 60 ∨ 1800 < duration) := by
      push_neg
      exact ⟨h60, h1800⟩
    refine ⟨rfl, ?_⟩
    intro c hc hne
    subst hc
    simp [generateScript, h, hd, hne]

/-- C6 witness: topic `"a"`, duration 90 s, collaborator output `"hi"`:
the stage succeeds with the target word count for 90 seconds. -/
theorem generateScript_spec_witness :
    generateScript ['a'] 90 (some ['h', 'i']) =
      Except.ok (targetWordCount 90, ['h', 'i']) :=
  ((generateScript_spec ['a'] 90 (some ['h', 'i'])).2.2 (by decide) (by decide)
    (by decide)).2 ['h', 'i'] rfl (by decide)

/- ------------------------------------------------------------------ -/
/- Claim C5                                                            -/
/- ------------------------------------------------------------------ -/

/-- C5 (amended): when the script-generation collaborator returns empty
output (missing or empty string), the script stage rejects it with an
`ExternalServiceError` whose `retryable` flag is `true` — the
constructor's default — so the error is classified Retryable, not Fatal,
and the retry mechanism would re-invoke the stage for this failure. -/
theorem generateScript_empty_output (topic : List Char) (duration : ℚ)
    (content : Option (List Char))
    (htopic : jsTrim topic ≠ []) (h60 : 60 ≤ duration) (h1800 : duration ≤ 1800)
    (hempty : content = none ∨ content = some []) :
    ∃ e, generateScript topic duration content = Except.error e ∧
      e.retryable = true ∧ e.code = "EXTERNAL_SERVICE_ERROR" := by
  have hd : ¬(duration < 60 ∨ 1800 < duration) := by
    push_neg
    exact ⟨h60, h1800⟩
  refine ⟨ExternalServiceError "OpenAI"
    ("Script generation failed: " ++
      (ExternalServiceError "OpenAI" "No script content generated" true).message) true,
    ?_, rfl, rfl⟩
  rcases hempty with h | h <;> subst h <;> simp [generateScript, htopic, hd]

/-- C5 counterexample: valid topic and duration, empty collaborator
output: the resulting error has `retryable = true`, so it is not Fatal
and the retry layer would re-invoke the stage — the claim's
classification is wrong on the code. -/
theorem generateScript_empty_output_retryable :
    resultRetryable (generateScript ['a'] 90 (some [])) = true ∧
    (generateScript ['a'] 90 (some [])).isOk = false :=
  ⟨rfl, rfl⟩

/-- C5 witness: the amended theorem applied to topic `"a"`, duration 90,
missing collaborator content. -/
theorem generateScript_empty_output_witness :
    ∃ e, generateScript ['a'] 90 none = Except.error e ∧
      e.retryable = true ∧ e.code = "EXTERNAL_SERVICE_ERROR" :=
  generateScript_empty_output ['a'] 90 none (by decide) (by decide) (by decide)
    (Or.inl rfl)

/- ------------------------------------------------------------------ -/
/- Claim C8                                                            -/
/- ------------------------------------------------------------------ -/

/-- C8 (amended): every image asset produced by the visual stage (from
the Unsplash mapping or the placeholder generator) is assigned the fixed
nominal slice duration of 5 seconds; every video asset with a nonzero
native duration is assigned `min(nativeDuration, 15)` seconds; a video
asset whose native duration is missing or zero is assigned
`min(10, 15) = 10` seconds (the source's `video.duration || 10`
fallback), not `min(nativeDuration, 15)`. -/
theorem nominalDuration_spec (urls keywords : List String) (count : ℕ)
    (vids : List (String × Option ℤ)) :
    (∀ v ∈ searchUnsplashImages urls, v.type = VisualType.image ∧ v.duration = 5) ∧
    (∀ v ∈ generatePlaceholderImages keywords count,
      v.type = VisualType.image ∧ v.duration = 5) ∧
    (∀ v ∈ searchPexelsVideos vids, v.type = VisualType.video) ∧
    (∀ link d, d ≠ 0 → (pexelsVideoResult link (some d)).duration = min d 15) ∧
    (∀ link : String, (pexelsVideoResult link none).duration = 10 ∧
      (pexelsVideoResult link (some 0)).duration = 10) := by
  refine ⟨?_, ?_, ?_, ?_, ?_⟩
  · intro v hv
    rcases List.mem_map.mp hv with ⟨u, hu, rfl⟩
    exact ⟨rfl, rfl⟩
  · intro v hv
    rcases List.mem_map.mp hv with ⟨i, hi, rfl⟩
    exact ⟨rfl, rfl⟩
  · intro v hv
    rcases List.mem_map.mp hv with ⟨p, hp, rfl⟩
    rfl
  · intro link d hd
    simp [pexelsVideoResult, jsOr, hd]
  · intro link
    exact ⟨rfl, rfl⟩

/-- C8 counterexample: a video whose native duration is 0 is assigned 10
seconds, while the claimed rule `min(nativeDuration, 15)` gives 0. -/
theorem pexelsVideoResult_zero_native :
    (pexelsVideoResult "url" (some 0)).duration = 10 ∧
    ¬((pexelsVideoResult "url" (some 0)).duration = min 0 15) := by
  constructor
  · rfl
  · decide

/-- C8 witness: the amended theorem's video rule applied to a clip with
native duration 20, capped to 15. -/
theorem nominalDuration_spec_witness :
    (pexelsVideoResult "clip" (some 20)).duration = min 20 15 :=
  (nominalDuration_spec [] [] 0 []).2.2.2.1 "clip" 20 (by decide)

/- ------------------------------------------------------------------ -/
/- Lemmas about the task queue.                                        -/
/- ------------------------------------------------------------------ -/

theorem mem_mapSet (m : TaskMap) (k : String) (v : QTask) :
    ∀ p ∈ mapSet m k v, p ∈ m ∨ p = (k, v) := by
  intro p hp
  unfold mapSet at hp
  split at hp
  · rcases List.mem_map.mp hp with ⟨q, hq, hfq⟩
    by_cases h : (q.1 == k) = true
    · right
      rw [← hfq]
      simp [h]
    · left
      rw [← hfq]
      simp only [h, if_false]
      simpa [h] using hq
  · rcases List.mem_append.mp hp with h | h
    · left; exact h
    · right; simpa using h

theorem mem_setStatus (m : TaskMap) (id s : String) :
    ∀ p ∈ setStatus m id s,
      (∃ q ∈ m, p = (q.1, { q.2 with status := s })) ∨ p ∈ m := by
  intro p hp
  rcases List.mem_map.mp hp with ⟨q, hq, hfq⟩
  by_cases h : (q.1 == id) = true
  · left
    exact ⟨q, hq, by rw [← hfq]; simp [h]⟩
  · right
    rw [← hfq]
    simpa [h] using hq

theorem queueReachable_validStatuses (m : TaskMap) (h : QueueReachable m) :
    ValidStatuses m := by
  induction h with
  | init => intro p hp; cases hp
  | step hr hs ih =>
    cases hs with
    | add task gid =>
      intro p hp
      rcases mem_mapSet _ _ _ p hp with h' | h'
      · exact ih p h'
      · subst h'; left; rfl
    | markProcessing id =>
      intro p hp
      rcases mem_setStatus _ _ _ p hp with ⟨q, hq, rfl⟩ | h'
      · right; left; rfl
      · exact ih p h'
    | markCompleted id =>
      intro p hp
      rcases mem_setStatus _ _ _ p hp with ⟨q, hq, rfl⟩ | h'
      · right; right; left; rfl
      · exact ih p h'
    | markFailed id =>
      intro p hp
      rcases mem_setStatus _ _ _ p hp with ⟨q, hq, rfl⟩ | h'
      · right; right; right; rfl
      · exact ih p h'

theorem count_four_statuses (ts : List QTask)
    (h : ∀ t ∈ ts, t.status = "pending" ∨ t.status = "processing" ∨
      t.status = "completed" ∨ t.status = "failed") :
    (ts.filter (fun t => t.status == "pending")).length +
    (ts.filter (fun t => t.status == "processing")).length +
    (ts.filter (fun t => t.status == "completed")).length +
    (ts.filter (fun t => t.status == "failed")).length = ts.length := by
  induction ts with
  | nil => simp
  | cons t ts ih =>
    have ht := h t (List.mem_cons_self t ts)
    have ihts := ih (fun t' ht' => h t' (List.mem_cons_of_mem t ht'))
    rcases ht with h1 | h1 | h1 | h1 <;>
      simp only [List.filter_cons, h1] <;> simp <;> omega

/- ------------------------------------------------------------------ -/
/- Claim C10                                                           -/
/- ------------------------------------------------------------------ -/

/-- C10: in every registry state reachable by any interleaving of
`addTask` and `processTask` steps from the empty map, every stored
task's status is one of `pending`, `processing`, `completed`, `failed`
(`addTask` forces `pending` regardless of the caller-supplied status),
and consequently the four counts of `getQueueStats` (waiting, active,
completed, failed) sum to the number of stored tasks. -/
theorem getQueueStats_partition (m : TaskMap) (h : QueueReachable m) :
    ValidStatuses m ∧
    (getQueueStats m).1 + (getQueueStats m).2.1 + (getQueueStats m).2.2.1 +
      (getQueueStats m).2.2.2 = m.length := by
  have hv := queueReachable_validStatuses m h
  refine ⟨hv, ?_⟩
  have hts : ∀ t ∈ m.map Prod.snd, t.status = "pending" ∨ t.status = "processing" ∨
      t.status = "completed" ∨ t.status = "failed" := by
    intro t ht
    rcases List.mem_map.mp ht with ⟨p, hp, rfl⟩
    exact hv p hp
  have hcount := count_four_statuses (m.map Prod.snd) hts
  simpa [getQueueStats] using hcount

/-- C10 witness: the theorem applied to the state obtained by adding one
task whose caller-supplied status is the invalid string
`"weird-status"`; the stored status is forced to `pending` and the
counts sum to 1. -/
theorem getQueueStats_partition_witness :
    ValidStatuses (addTask [] ⟨"", "weird-status", "topic"⟩ "id-1") ∧
    (getQueueStats (addTask [] ⟨"", "weird-status", "topic"⟩ "id-1")).1 +
      (getQueueStats (addTask [] ⟨"", "weird-status", "topic"⟩ "id-1")).2.1 +
      (getQueueStats (addTask [] ⟨"", "weird-status", "topic"⟩ "id-1")).2.2.1 +
      (getQueueStats (addTask [] ⟨"", "weird-status", "topic"⟩ "id-1")).2.2.2 =
      (addTask [] ⟨"", "weird-status", "topic"⟩ "id-1").length :=
  getQueueStats_partition _
    (QueueReachable.step QueueReachable.init
      (QueueStep.add [] ⟨"", "weird-status", "topic"⟩ "id-1"))

/- ------------------------------------------------------------------ -/
/- Lemmas about jsSplit and wordsOf.                                   -/
/- ------------------------------------------------------------------ -/

theorem jsSplit_ne_nil (p : Char → Bool) : ∀ l, jsSplit p l ≠ [] := by
  intro l
  cases l with
  | nil => simp [jsSplit]
  | cons c l =>
    by_cases h : p c
    · simp [jsSplit, h]
    · simp only [jsSplit, h, Bool.false_eq_true, if_false]
      cases hj : jsSplit p l <;> simp

theorem jsSplit_cons_neg (p : Char → Bool) (c : Char) (l : List Char) (h : p c = false) :
    ∃ w ws, jsSplit p l = w :: ws ∧ jsSplit p (c :: l) = (c :: w) :: ws := by
  cases hj : jsSplit p l with
  | nil => exact absurd hj (jsSplit_ne_nil p l)
  | cons w ws =>
    refine ⟨w, ws, rfl, ?_⟩
    simp [jsSplit, h, hj]

theorem jsSplit_append (p : Char → Bool) (d : Char) (hd : p d = true) :
    ∀ a b, jsSplit p (a ++ d :: b) = jsSplit p a ++ jsSplit p b := by
  intro a
  induction a with
  | nil => intro b; simp [jsSplit, hd]
  | cons c a ih =>
    intro b
    by_cases h : p c
    · simp only [List.cons_append, jsSplit, h, if_true, List.append_eq]
      rw [ih b]
    · have hcf : p c = false := by simpa using h
      obtain ⟨w, ws, hj, hcons⟩ := jsSplit_cons_neg p c a hcf
      obtain ⟨w2, ws2, hj2, hcons2⟩ := jsSplit_cons_neg p c (a ++ d :: b) hcf
      rw [List.cons_append, hcons2, hcons]
      have hkey : w2 :: ws2 = w :: (ws ++ jsSplit p b) := by
        rw [← hj2, ih b, hj]
        rfl
      injection hkey with h1 h2
      subst h1
      subst h2
      rfl

theorem jsSplit_no_delim (p : Char → Bool) :
    ∀ w, (∀ c ∈ w, p c = false) → jsSplit p w = [w] := by
  intro w
  induction w with
  | nil => intro _; rfl
  | cons c l ih =>
    intro h
    have hc : p c = false := h c (List.mem_cons_self c l)
    have hl := ih (fun x hx => h x (List.mem_cons_of_mem c hx))
    simp [jsSplit, hc, hl]

theorem jsSplit_pieces_no_delim (p : Char → Bool) :
    ∀ l, ∀ w ∈ jsSplit p l, ∀ c ∈ w, p c = false := by
  intro l
  induction l with
  | nil =>
    intro w hw c hc
    simp [jsSplit] at hw
    subst hw
    cases hc
  | cons x l ih =>
    intro w hw c hc
    by_cases hx : p x
    · rw [show jsSplit p (x :: l) = [] :: jsSplit p l by simp [jsSplit, hx]] at hw
      rcases List.mem_cons.mp hw with rfl | hw'
      · cases hc
      · exact ih w hw' c hc
    · have hxf : p x = false := by simpa using hx
      obtain ⟨w0, ws0, hj, hcons⟩ := jsSplit_cons_neg p x l hxf
      rw [hcons] at hw
      rcases List.mem_cons.mp hw with rfl | hw'
      · rcases List.mem_cons.mp hc with rfl | hc'
        · exact hxf
        · exact ih w0 (by rw [hj]; exact List.mem_cons_self _ _) c hc'
      · exact ih w (by rw [hj]; exact List.mem_cons_of_mem _ hw') c hc

theorem jsSplit_pieces_chars (p : Char → Bool) :
    ∀ l, ∀ w ∈ jsSplit p l, ∀ c ∈ w, c ∈ l := by
  intro l
  induction l with
  | nil =>
    intro w hw c hc
    simp [jsSplit] at hw
    subst hw
    cases hc
  | cons x l ih =>
    intro w hw c hc
    by_cases hx : p x
    · rw [show jsSplit p (x :: l) = [] :: jsSplit p l by simp [jsSplit, hx]] at hw
      rcases List.mem_cons.mp hw with rfl | hw'
      · cases hc
      · exact List.mem_cons_of_mem _ (ih w hw' c hc)
    · have hxf : p x = false := by simpa using hx
      obtain ⟨w0, ws0, hj, hcons⟩ := jsSplit_cons_neg p x l hxf
      rw [hcons] at hw
      rcases List.mem_cons.mp hw with rfl | hw'
      · rcases List.mem_cons.mp hc with rfl | hc'
        · exact List.mem_cons_self _ _
        · exact List.mem_cons_of_mem _
            (ih w0 (by rw [hj]; exact List.mem_cons_self _ _) c hc')
      · exact List.mem_cons_of_mem _
          (ih w (by rw [hj]; exact List.mem_cons_of_mem _ hw') c hc)

theorem wordsOf_nil : wordsOf [] = [] := rfl

theorem wordsOf_cons_space (l : List Char) : wordsOf (' ' :: l) = wordsOf l := by
  simp [wordsOf, jsSplit]

theorem wordsOf_append_space (a b : List Char) :
    wordsOf (a ++ ' ' :: b) = wordsOf a ++ wordsOf b := by
  unfold wordsOf
  rw [jsSplit_append _ ' ' (by decide) a b, List.filter_append]

theorem wordsOf_single (w : List Char) (hw : ' ' ∉ w) (hne : w ≠ []) :
    wordsOf w = [w] := by
  unfold wordsOf
  rw [jsSplit_no_delim _ w (fun c hc => by
    have hcne : c ≠ ' ' := fun h => hw (h ▸ hc)
    simp [hcne])]
  simp [hne]

theorem wordsOf_all_space (t : List Char) (h : ∀ c ∈ t, c = ' ') : wordsOf t = [] := by
  induction t with
  | nil => rfl
  | cons c t ih =>
    have hc := h c (List.mem_cons_self c t)
    subst hc
    rw [wordsOf_cons_space]
    exact ih (fun x hx => h x (List.mem_cons_of_mem _ hx))

theorem wordsOf_append_all_space (s t : List Char) (h : ∀ c ∈ t, c = ' ') :
    wordsOf (s ++ t) = wordsOf s := by
  cases t with
  | nil => simp
  | cons c t =>
    have hc := h c (List.mem_cons_self c t)
    subst hc
    rw [wordsOf_append_space,
      wordsOf_all_space t (fun x hx => h x (List.mem_cons_of_mem _ hx)),
      List.append_nil]

theorem wordsOf_all_space_append (t s : List Char) (h : ∀ c ∈ t, c = ' ') :
    wordsOf (t ++ s) = wordsOf s := by
  induction t with
  | nil => simp
  | cons c t ih =>
    have hc := h c (List.mem_cons_self c t)
    subst hc
    rw [List.cons_append, wordsOf_cons_space]
    exact ih (fun x hx => h x (List.mem_cons_of_mem _ hx))

theorem wordsOf_joinSp (acc w : List Char) :
    wordsOf (joinSp acc w) = wordsOf acc ++ wordsOf w := by
  unfold joinSp
  split
  · rename_i h
    rw [h, wordsOf_nil, List.nil_append]
  · exact wordsOf_append_space acc w

theorem wordsOf_jsTrim (l : List Char) (hos : OnlySpaceWS l) :
    wordsOf (jsTrim l) = wordsOf l := by
  unfold jsTrim
  set A := l.dropWhile Char.isWhitespace with hA
  have hsplit : l.takeWhile Char.isWhitespace ++ A = l :=
    List.takeWhile_append_dropWhile _ _
  have htake_sp : ∀ c ∈ l.takeWhile Char.isWhitespace, c = ' ' := by
    intro c hc
    have hws := List.mem_takeWhile_imp hc
    have hcl : c ∈ l := (List.takeWhile_sublist _).subset hc
    exact hos c hcl hws
  have hwA : wordsOf l = wordsOf A := by
    conv_lhs => rw [← hsplit]
    exact wordsOf_all_space_append _ _ htake_sp
  set B := (A.reverse.dropWhile Char.isWhitespace).reverse with hB
  have hAsplit : A.reverse.takeWhile Char.isWhitespace ++
      A.reverse.dropWhile Char.isWhitespace = A.reverse :=
    List.takeWhile_append_dropWhile _ _
  have hArec : A = B ++ (A.reverse.takeWhile Char.isWhitespace).reverse := by
    have hrev := congrArg List.reverse hAsplit
    rw [List.reverse_append, List.reverse_reverse] at hrev
    exact hrev.symm
  have htail_sp : ∀ c ∈ (A.reverse.takeWhile Char.isWhitespace).reverse, c = ' ' := by
    intro c hc
    rw [List.mem_reverse] at hc
    have hws := List.mem_takeWhile_imp hc
    have hcA : c ∈ A.reverse := (List.takeWhile_sublist _).subset hc
    have hcl : c ∈ l := (List.dropWhile_sublist _).subset (List.mem_reverse.mp hcA)
    exact hos c hcl hws
  rw [hwA]
  conv_rhs => rw [hArec]
  exact (wordsOf_append_all_space _ _ htail_sp).symm

theorem flatten_wordsOf_no_delim (L : List (List Char))
    (h : ∀ w ∈ L, ∀ c ∈ w, (c == ' ') = false) :
    (L.map wordsOf).flatten = L.filter (fun w => !w.isEmpty) := by
  induction L with
  | nil => rfl
  | cons w L ih =>
    have ihL := ih (fun x hx => h x (List.mem_cons_of_mem _ hx))
    by_cases hne : w = []
    · subst hne
      simpa [wordsOf_nil, List.filter_cons] using ihL
    · rw [List.map_cons, List.flatten_cons, ihL, List.filter_cons]
      have hsp : ' ' ∉ w := fun hm => by
        simpa using h w (List.mem_cons_self _ _) ' ' hm
      rw [wordsOf_single w hsp hne]
      simp [hne]

theorem wordsOf_split_flatten (l : List Char) :
    ((jsSplit (fun c => c == ' ') l).map wordsOf).flatten = wordsOf l := by
  rw [flatten_wordsOf_no_delim _ (jsSplit_pieces_no_delim _ l)]
  rfl

/- ------------------------------------------------------------------ -/
/- Helper lemmas for the chunking loops.                               -/
/- ------------------------------------------------------------------ -/

theorem mem_jsTrim (l : List Char) : ∀ c ∈ jsTrim l, c ∈ l := by
  intro c hc
  unfold jsTrim at hc
  rw [List.mem_reverse] at hc
  have h1 := (List.dropWhile_sublist _).subset hc
  rw [List.mem_reverse] at h1
  exact (List.dropWhile_sublist _).subset h1

theorem jsTrim_length_le (l : List Char) : (jsTrim l).length ≤ l.length := by
  unfold jsTrim
  have h1 : ((l.dropWhile Char.isWhitespace).reverse.dropWhile Char.isWhitespace).length ≤
      (l.dropWhile Char.isWhitespace).reverse.length :=
    (List.dropWhile_sublist _).length_le
  have h2 : (l.dropWhile Char.isWhitespace).length ≤ l.length :=
    (List.dropWhile_sublist _).length_le
  simp only [List.length_reverse] at h1 ⊢
  omega

theorem onlySpaceWS_nil : OnlySpaceWS [] := by
  intro c hc _
  cases hc

theorem onlySpaceWS_jsTrim (l : List Char) (h : OnlySpaceWS l) :
    OnlySpaceWS (jsTrim l) :=
  fun c hc hws => h c (mem_jsTrim l c hc) hws

theorem onlySpaceWS_append (a b : List Char) (ha : OnlySpaceWS a)
    (hb : OnlySpaceWS b) : OnlySpaceWS (a ++ b) := by
  intro c hc hws
  rcases List.mem_append.mp hc with h | h
  · exact ha c h hws
  · exact hb c h hws

theorem onlySpaceWS_joinSp (acc w : List Char) (ha : OnlySpaceWS acc)
    (hw : OnlySpaceWS w) : OnlySpaceWS (joinSp acc w) := by
  unfold joinSp
  split
  · exact hw
  · refine onlySpaceWS_append _ _ ha ?_
    intro c hc hws
    rcases List.mem_cons.mp hc with rfl | h
    · rfl
    · exact hw c h hws

theorem onlySpaceWS_dot : OnlySpaceWS ['.'] := by
  intro c hc hws
  rw [List.mem_singleton] at hc
  subst hc
  exact absurd hws (by decide)

theorem joinSp_length (acc w : List Char) :
    (joinSp acc w).length ≤ acc.length + w.length + 1 := by
  unfold joinSp
  split
  · omega
  · simp only [List.length_append, List.length_cons]
    omega

theorem chunkWords_push (chunks : List (List Char)) (c : List Char) :
    chunkWords (chunks ++ [c]) = chunkWords chunks ++ wordsOf c := by
  simp [chunkWords]

theorem chunkWords_pushCur (chunks : List (List Char)) (cur : List Char)
    (hcur : OnlySpaceWS cur) :
    chunkWords (if cur = [] then chunks else chunks ++ [jsTrim cur]) =
      chunkWords chunks ++ wordsOf cur := by
  split
  · rename_i h
    rw [h, wordsOf_nil, List.append_nil]
  · rw [chunkWords_push, wordsOf_jsTrim cur hcur]

theorem keptOf_nil : keptOf [] = [] := rfl

theorem keptOf_cons_skip (s : List Char) (ss : List (List Char)) (h : jsTrim s = []) :
    keptOf (s :: ss) = keptOf ss := by
  simp [keptOf, List.filterMap_cons, h]

theorem keptOf_cons (s : List Char) (ss : List (List Char)) (h : jsTrim s ≠ []) :
    keptOf (s :: ss) = (jsTrim s ++ ['.']) :: keptOf ss := by
  simp [keptOf, List.filterMap_cons, h]

theorem sentenceLoop_nil (max : ℕ) (chunks : List (List Char)) (cur : List Char) :
    sentenceLoop max [] chunks cur = (chunks, cur) := rfl

theorem sentenceLoop_cons_skip (max : ℕ) (s : List Char) (ss : List (List Char))
    (chunks : List (List Char)) (cur : List Char) (h : jsTrim s = []) :
    sentenceLoop max (s :: ss) chunks cur = sentenceLoop max ss chunks cur := by
  simp [sentenceLoop, h]

theorem sentenceLoop_cons_fit (max : ℕ) (s : List Char) (ss : List (List Char))
    (chunks : List (List Char)) (cur : List Char) (h : jsTrim s ≠ [])
    (hfit : ¬ max < cur.length + (jsTrim s ++ ['.']).length) :
    sentenceLoop max (s :: ss) chunks cur =
      sentenceLoop max ss chunks (joinSp cur (jsTrim s ++ ['.'])) := by
  have hfit' : ¬ max < cur.length + ((jsTrim s).length + 1) := by simpa using hfit
  simp [sentenceLoop, h, hfit']

theorem sentenceLoop_cons_small (max : ℕ) (s : List Char) (ss : List (List Char))
    (chunks : List (List Char)) (cur : List Char) (h : jsTrim s ≠ [])
    (hover : max < cur.length + (jsTrim s ++ ['.']).length)
    (hsmall : ¬ max < (jsTrim s ++ ['.']).length) :
    sentenceLoop max (s :: ss) chunks cur =
      sentenceLoop max ss (if cur = [] then chunks else chunks ++ [jsTrim cur])
        (jsTrim s ++ ['.']) := by
  have hover' : max < cur.length + ((jsTrim s).length + 1) := by simpa using hover
  have hsmall' : ¬ max < (jsTrim s).length + 1 := by simpa using hsmall
  simp [sentenceLoop, h, hover', hsmall']

theorem sentenceLoop_cons_big (max : ℕ) (s : List Char) (ss : List (List Char))
    (chunks : List (List Char)) (cur : List Char) (h : jsTrim s ≠ [])
    (hover : max < cur.length + (jsTrim s ++ ['.']).length)
    (hbig : max < (jsTrim s ++ ['.']).length) :
    sentenceLoop max (s :: ss) chunks cur =
      sentenceLoop max ss
        (wordLoop max (jsSplit (fun c => c == ' ') (jsTrim s ++ ['.']))
          (if cur = [] then chunks else chunks ++ [jsTrim cur]) []).1
        (wordLoop max (jsSplit (fun c => c == ' ') (jsTrim s ++ ['.']))
          (if cur = [] then chunks else chunks ++ [jsTrim cur]) []).2 := by
  have hover' : max < cur.length + ((jsTrim s).length + 1) := by simpa using hover
  have hbig' : max < (jsTrim s).length + 1 := by simpa using hbig
  simp [sentenceLoop, h, hover', hbig']

theorem splitTextIntoChunks_eq_of_lt (text : List Char) (max : ℕ)
    (h : ¬ text.length ≤ max) :
    splitTextIntoChunks text max =
      (if (sentenceLoop max (jsSplit isSentencePunct text) [] []).2 = []
       then (sentenceLoop max (jsSplit isSentencePunct text) [] []).1
       else (sentenceLoop max (jsSplit isSentencePunct text) [] []).1 ++
         [jsTrim (sentenceLoop max (jsSplit isSentencePunct text) [] []).2]) := by
  simp [splitTextIntoChunks, h]

/- ------------------------------------------------------------------ -/
/- The chunking loop invariants.                                       -/
/- ------------------------------------------------------------------ -/

theorem wordLoop_words (max : ℕ) :
    ∀ ws chunks wc,
      (∀ w ∈ ws, ' ' ∉ w) → (∀ w ∈ ws, OnlySpaceWS w) → OnlySpaceWS wc →
      chunkWords (wordLoop max ws chunks wc).1 ++ wordsOf (wordLoop max ws chunks wc).2 =
        chunkWords chunks ++ wordsOf wc ++ (ws.map wordsOf).flatten ∧
      OnlySpaceWS (wordLoop max ws chunks wc).2 := by
  intro ws
  induction ws with
  | nil =>
    intro chunks wc _ _ hwc
    exact ⟨by simp [wordLoop], hwc⟩
  | cons w ws ih =>
    intro chunks wc hns hos hwc
    have hnsw : ' ' ∉ w := hns w (List.mem_cons_self _ _)
    have hosw : OnlySpaceWS w := hos w (List.mem_cons_self _ _)
    have hns' := fun x hx => hns x (List.mem_cons_of_mem _ hx)
    have hos' := fun x hx => hos x (List.mem_cons_of_mem _ hx)
    have hjoin : joinSp [] w = w := by simp [joinSp]
    simp only [wordLoop]
    split
    · obtain ⟨heq, hosr⟩ := ih (if wc = [] then chunks else chunks ++ [jsTrim wc])
        (joinSp [] w) hns' hos' (by rw [hjoin]; exact hosw)
      refine ⟨?_, hosr⟩
      rw [heq, hjoin, chunkWords_pushCur chunks wc hwc]
      simp [List.append_assoc]
    · obtain ⟨heq, hosr⟩ := ih chunks (joinSp wc w) hns' hos'
        (onlySpaceWS_joinSp _ _ hwc hosw)
      refine ⟨?_, hosr⟩
      rw [heq, wordsOf_joinSp]
      simp [List.append_assoc]

theorem wordLoop_good (max : ℕ) :
    ∀ ws chunks wc, (∀ w ∈ ws, ' ' ∉ w) →
      (∀ ch ∈ chunks, GoodChunk max ch) → GoodWc max wc →
      (∀ ch ∈ (wordLoop max ws chunks wc).1, GoodChunk max ch) ∧
      GoodWc max (wordLoop max ws chunks wc).2 := by
  intro ws
  induction ws with
  | nil =>
    intro chunks wc _ hch hwc
    exact ⟨hch, hwc⟩
  | cons w ws ih =>
    intro chunks wc hns hch hwc
    have hnsw : ' ' ∉ w := hns w (List.mem_cons_self _ _)
    have hns' := fun x hx => hns x (List.mem_cons_of_mem _ hx)
    simp only [wordLoop]
    split
    · apply ih _ _ hns'
      · intro ch hc
        split at hc
        · exact hch ch hc
        · rcases List.mem_append.mp hc with hmem | hmem
          · exact hch ch hmem
          · rw [List.mem_singleton] at hmem
            subst hmem
            rcases hwc with hlen | hsp
            · left
              have := jsTrim_length_le wc
              omega
            · right
              intro hm
              exact hsp (mem_jsTrim wc ' ' hm)
      · right
        rw [show joinSp [] w = w from by simp [joinSp]]
        exact hnsw
    · rename_i hfit
      apply ih _ _ hns' hch
      left
      push_neg at hfit
      have := joinSp_length wc w
      omega

theorem sentenceLoop_words (max : ℕ) :
    ∀ ss chunks cur, (∀ s ∈ ss, OnlySpaceWS s) → OnlySpaceWS cur →
      chunkWords (sentenceLoop max ss chunks cur).1 ++
        wordsOf (sentenceLoop max ss chunks cur).2 =
        chunkWords chunks ++ wordsOf cur ++ ((keptOf ss).map wordsOf).flatten ∧
      OnlySpaceWS (sentenceLoop max ss chunks cur).2 := by
  intro ss
  induction ss with
  | nil =>
    intro chunks cur _ hcur
    exact ⟨by simp [sentenceLoop_nil, keptOf_nil], hcur⟩
  | cons s ss ih =>
    intro chunks cur hs hcur
    have hss := fun x hx => hs x (List.mem_cons_of_mem _ hx)
    have hos_s : OnlySpaceWS s := hs s (List.mem_cons_self _ _)
    have hts : OnlySpaceWS (jsTrim s) := onlySpaceWS_jsTrim s hos_s
    have hswp : OnlySpaceWS (jsTrim s ++ ['.']) :=
      onlySpaceWS_append _ _ hts onlySpaceWS_dot
    by_cases htriv : jsTrim s = []
    · rw [sentenceLoop_cons_skip max s ss chunks cur htriv, keptOf_cons_skip s ss htriv]
      exact ih chunks cur hss hcur
    · rw [keptOf_cons s ss htriv]
      by_cases hover : max < cur.length + (jsTrim s ++ ['.']).length
      · by_cases hbig : max < (jsTrim s ++ ['.']).length
        · rw [sentenceLoop_cons_big max s ss chunks cur htriv hover hbig]
          have hwords_ns : ∀ w ∈ jsSplit (fun c => c == ' ') (jsTrim s ++ ['.']), ' ' ∉ w := by
            intro w hw hm
            have := jsSplit_pieces_no_delim _ _ w hw ' ' hm
            simp at this
          have hwords_os : ∀ w ∈ jsSplit (fun c => c == ' ') (jsTrim s ++ ['.']),
              OnlySpaceWS w := by
            intro w hw c hc hws
            exact hswp c (jsSplit_pieces_chars _ _ w hw c hc) hws
          obtain ⟨hweq, hwos⟩ := wordLoop_words max
            (jsSplit (fun c => c == ' ') (jsTrim s ++ ['.']))
            (if cur = [] then chunks else chunks ++ [jsTrim cur]) []
            hwords_ns hwords_os onlySpaceWS_nil
          obtain ⟨heq, hosr⟩ := ih _ _ hss hwos
          refine ⟨?_, hosr⟩
          rw [heq, hweq, chunkWords_pushCur chunks cur hcur, wordsOf_nil,
            wordsOf_split_flatten, List.map_cons, List.flatten_cons]
          simp [List.append_assoc]
        · rw [sentenceLoop_cons_small max s ss chunks cur htriv hover hbig]
          obtain ⟨heq, hosr⟩ := ih _ _ hss hswp
          refine ⟨?_, hosr⟩
          rw [heq, chunkWords_pushCur chunks cur hcur, List.map_cons, List.flatten_cons]
          simp [List.append_assoc]
      · rw [sentenceLoop_cons_fit max s ss chunks cur htriv hover]
        obtain ⟨heq, hosr⟩ := ih _ _ hss (onlySpaceWS_joinSp _ _ hcur hswp)
        refine ⟨?_, hosr⟩
        rw [heq, wordsOf_joinSp, List.map_cons, List.flatten_cons]
        simp [List.append_assoc]

theorem sentenceLoop_good (max : ℕ) :
    ∀ ss chunks cur, (∀ ch ∈ chunks, GoodChunk max ch) → GoodChunk max cur →
      (∀ ch ∈ (sentenceLoop max ss chunks cur).1, GoodChunk max ch) ∧
      GoodChunk max (sentenceLoop max ss chunks cur).2 := by
  intro ss
  induction ss with
  | nil =>
    intro chunks cur hch hcur
    exact ⟨hch, hcur⟩
  | cons s ss ih =>
    intro chunks cur hch hcur
    have hchunks1 : ∀ ch ∈ (if cur = [] then chunks else chunks ++ [jsTrim cur]),
        GoodChunk max ch := by
      intro ch hc
      split at hc
      · exact hch ch hc
      · rcases List.mem_append.mp hc with hmem | hmem
        · exact hch ch hmem
        · rw [List.mem_singleton] at hmem
          subst hmem
          rcases hcur with hlen | hsp
          · left
            have := jsTrim_length_le cur
            omega
          · right
            intro hm
            exact hsp (mem_jsTrim cur ' ' hm)
    by_cases htriv : jsTrim s = []
    · rw [sentenceLoop_cons_skip max s ss chunks cur htriv]
      exact ih chunks cur hch hcur
    · by_cases hover : max < cur.length + (jsTrim s ++ ['.']).length
      · by_cases hbig : max < (jsTrim s ++ ['.']).length
        · rw [sentenceLoop_cons_big max s ss chunks cur htriv hover hbig]
          have hwords_ns : ∀ w ∈ jsSplit (fun c => c == ' ') (jsTrim s ++ ['.']), ' ' ∉ w := by
            intro w hw hm
            have := jsSplit_pieces_no_delim _ _ w hw ' ' hm
            simp at this
          obtain ⟨hwch, hwwc⟩ := wordLoop_good max
            (jsSplit (fun c => c == ' ') (jsTrim s ++ ['.']))
            (if cur = [] then chunks else chunks ++ [jsTrim cur]) []
            hwords_ns hchunks1 (Or.inl (by simp))
          apply ih _ _ hwch
          rcases hwwc with hlen | hsp
          · left; omega
          · right; exact hsp
        · rw [sentenceLoop_cons_small max s ss chunks cur htriv hover hbig]
          apply ih _ _ hchunks1
          left
          push_neg at hbig
          omega
      · rw [sentenceLoop_cons_fit max s ss chunks cur htriv hover]
        apply ih _ _ hch
        left
        push_neg at hover
        have := joinSp_length cur (jsTrim s ++ ['.'])
        omega

/- ------------------------------------------------------------------ -/
/- Claim C7                                                            -/
/- ------------------------------------------------------------------ -/

/-- C7 (amended): for every input text and chunk-size limit,
`splitTextIntoChunks` returns the single-element list `[text]` when the
text's length is at most the limit; otherwise it splits on sentence
boundaries, falling back to word boundaries when a single sentence
exceeds the limit, such that every returned chunk either has length at
most `limit + 1` (the joining space is not counted by the overflow
check, so chunks may exceed the limit by one character) or is a single
word longer than the limit (words are never split), and the chunks
preserve the processed text's words in order (stated for texts whose
only whitespace is the space character: the concatenated words of the
chunks are exactly the words of the kept sentences, in order). -/
theorem splitTextIntoChunks_spec (text : List Char) (maxChunkSize : ℕ) :
    (text.length ≤ maxChunkSize → splitTextIntoChunks text maxChunkSize = [text]) ∧
    (∀ c ∈ splitTextIntoChunks text maxChunkSize,
      c.length ≤ maxChunkSize + 1 ∨ ' ' ∉ c) ∧
    (OnlySpaceWS text → maxChunkSize < text.length →
      chunkWords (splitTextIntoChunks text maxChunkSize) =
        ((keptSentences text).map wordsOf).flatten) := by
  refine ⟨?_, ?_, ?_⟩
  · intro h
    simp [splitTextIntoChunks, h]
  · intro c hc
    by_cases hle : text.length ≤ maxChunkSize
    · rw [show splitTextIntoChunks text maxChunkSize = [text] from by
        simp [splitTextIntoChunks, hle]] at hc
      rw [List.mem_singleton] at hc
      subst hc
      left
      omega
    · rw [splitTextIntoChunks_eq_of_lt text maxChunkSize hle] at hc
      obtain ⟨hgood, hgcur⟩ := sentenceLoop_good maxChunkSize
        (jsSplit isSentencePunct text) [] []
        (fun ch hch => absurd hch (List.not_mem_nil ch)) (Or.inl (by simp))
      split at hc
      · exact hgood c hc
      · rcases List.mem_append.mp hc with hmem | hmem
        · exact hgood c hmem
        · rw [List.mem_singleton] at hmem
          subst hmem
          rcases hgcur with hlen | hsp
          · left
            have := jsTrim_length_le
              (sentenceLoop maxChunkSize (jsSplit isSentencePunct text) [] []).2
            omega
          · right
            intro hm
            exact hsp (mem_jsTrim _ ' ' hm)
  · intro hos hlt
    have hnotle : ¬ text.length ≤ maxChunkSize := by omega
    have hsent_os : ∀ s ∈ jsSplit isSentencePunct text, OnlySpaceWS s := by
      intro s hsmem c hc hws
      exact hos c (jsSplit_pieces_chars _ _ s hsmem c hc) hws
    obtain ⟨heq, hosr⟩ := sentenceLoop_words maxChunkSize
      (jsSplit isSentencePunct text) [] [] hsent_os onlySpaceWS_nil
    rw [splitTextIntoChunks_eq_of_lt text maxChunkSize hnotle]
    rw [show chunkWords [] = [] from rfl, wordsOf_nil] at heq
    simp only [List.nil_append] at heq
    split
    · rename_i hnil
      rw [hnil, wordsOf_nil, List.append_nil] at heq
      exact heq
    · rw [chunkWords_push, wordsOf_jsTrim _ hosr]
      exact heq

/-- C7 counterexample: with the limit 7 and the text `"abc..de."` (8
characters, so the split path runs), the overflow check
`currentChunk.length + sentence.length > maxChunkSize` does not count the
joining space, so the single returned chunk `"abc. de."` has length 8,
exceeding the limit — the claim that every chunk has length at most the
limit is false. -/
theorem splitTextIntoChunks_exceeds_limit :
    splitTextIntoChunks ['a', 'b', 'c', '.', '.', 'd', 'e', '.'] 7 =
      [['a', 'b', 'c', '.', ' ', 'd', 'e', '.']] ∧
    ((splitTextIntoChunks ['a', 'b', 'c', '.', '.', 'd', 'e', '.'] 7).all
      (fun c => c.length ≤ 7)) = false := by
  constructor <;> decide

/-- C7 witness: the amended theorem applied to the text `"ab cd."` and
the limit 3: the short-circuit case, the chunk-length bound and the
word-preservation equation all instantiated. -/
theorem splitTextIntoChunks_spec_witness :
    chunkWords (splitTextIntoChunks ['a', 'b', ' ', 'c', 'd', '.'] 3) =
      ((keptSentences ['a', 'b', ' ', 'c', 'd', '.']).map wordsOf).flatten :=
  (splitTextIntoChunks_spec ['a', 'b', ' ', 'c', 'd', '.'] 3).2.2
    (by decide) (by decide)

end YT
